import Mathlib

/-!
Verification of the fundaeai/chatbot ingestion pipeline.

This file gives a shallow embedding, in Lean, of the algorithmic core of the
repository's ingestion pipeline and proves (or refutes) the specification
claims about it.  Each definition mirrors one Python function:

* ContentChunker (pipeline/utils/chunker.py): word splitting, relevance
  scoring, per-chunk image context, merging of small chunks;
* ChunkingService.chunk_document (complete_ingestion_pipeline.py);
* EmbeddingService._generate_embeddings_batch (pipeline/services/embedding_service.py);
* PDFExtractor drawing clustering (pipeline/extractors/pdf_extractor.py);
* CompleteIngestionPipeline.process_file_with_storage_check and the batch
  wrapper process_batch_with_storage_check (complete_ingestion_pipeline.py).

External collaborators (the embedding service, the Azure index, the blob
store, the langchain splitter, the rasterizer) are passed in as function
parameters, exactly at the interfaces where the Python code calls them.
Python floats are modelled by exact rationals; Python `enumerate` loops are
modelled by an explicit index-carrying recursion (`mapWithIndex`).
-/

namespace Chatbot

/-! ## Generic helpers -/

/-- Python `enumerate`-style map: applies `f i a` to each element `a`, with
`i` counting up from the given start index. -/
def mapWithIndex (f : ℕ → α → β) : ℕ → List α → List β
  | _, [] => []
  | i, a :: as => f i a :: mapWithIndex f (i + 1) as

/-- Character-list prefix test (helper for the substring test below). -/
def prefChars : List Char → List Char → Bool
  | [], _ => true
  | _ :: _, [] => false
  | a :: as, b :: bs => a == b && prefChars as bs

/-- Worker for `strContains`: try the needle at every suffix of the haystack. -/
def containsAux (needle : List Char) : List Char → Bool
  | [] => prefChars needle []
  | c :: rest => prefChars needle (c :: rest) || containsAux needle rest

/-- Python `needle in hay` on strings: contiguous substring containment. -/
def strContains (hay needle : String) : Bool :=
  containsAux needle.data hay.data

/-- Worker for `pySplitWs`: the accumulator holds the current in-progress word
in reverse. -/
def splitWsAux : List Char → List Char → List String
  | [], acc => if acc = [] then [] else [String.mk acc.reverse]
  | c :: rest, acc =>
    if c.isWhitespace then
      (if acc = [] then [] else [String.mk acc.reverse]) ++ splitWsAux rest []
    else splitWsAux rest (c :: acc)

/-- Python `str.split()` with no arguments: split on runs of whitespace and
drop empty pieces. -/
def pySplitWs (s : String) : List String := splitWsAux s.data []

/-- Python `str.lower()` (ASCII case folding, which covers every string the
pipeline's claims exercise). -/
def strToLower (s : String) : String := String.mk (s.data.map Char.toLower)

/-! ## ContentChunker relevance scoring (chunker.py, `_calculate_relevance_score`) -/

/-- Lower-cased whitespace-token set of a string, as built by
`set(text.lower().split())` in the source.  A Python set is modelled by the
deduplicated token list; only emptiness and the cardinalities of
intersections and unions of these sets are ever consumed, all of which are
independent of the representative's order. -/
def wordList (s : String) : List String :=
  (pySplitWs (strToLower s)).dedup

/-- The word set of `wordList` as a `Finset`, for stating set-level facts. -/
def wordSet (s : String) : Finset String :=
  (wordList s).toFinset

/-- ContentChunker._calculate_relevance_score: token-set Jaccard similarity of
the lower-cased word sets of the chunk content and the image-analysis text;
0 when either word set is empty. -/
def calculateRelevanceScore (chunkContent imageAnalysis : String) : ℚ :=
  let chunkWords := wordList chunkContent
  let analysisWords := wordList imageAnalysis
  if chunkWords = [] ∨ analysisWords = [] then 0
  else
    let overlap := (chunkWords ∩ analysisWords).length
    let total := (chunkWords ∪ analysisWords).length
    if 0 < total then (overlap : ℚ) / total else 0

/-! ## ContentChunker image context (chunker.py, `_get_chunk_image_context`) -/

/-- One visual-analysis result, as produced per image by the captioning agent
and consumed by the chunker: the dict keys success / image_id / analysis /
page_number. -/
structure ImageAnalysisResult where
  success : Bool
  imageId : String
  analysis : String
  pageNumber : ℕ
deriving DecidableEq

/-- One entry of a chunk's image_context list. -/
structure ImageContextEntry where
  imageId : String
  analysis : String
  pageNumber : ℕ
  relevanceScore : ℚ
deriving DecidableEq

/-- The inclusion test of `_get_chunk_image_context`: the analysis is attached
when it succeeded and either the lower-cased image id occurs in the
(lower-cased) chunk content or one of the first ten lower-cased words of the
analysis text occurs in the chunk content as a substring.  `chunkContent` is
already lower-cased by the caller. -/
def includedInContext (chunkContent : String) (a : ImageAnalysisResult) : Bool :=
  a.success &&
    (strContains chunkContent (strToLower a.imageId) ||
      ((pySplitWs (strToLower a.analysis)).take 10).any (fun w => strContains chunkContent w))

/-- The record built for an attached analysis in `_get_chunk_image_context`. -/
def toContextEntry (chunkContent : String) (a : ImageAnalysisResult) : ImageContextEntry :=
  { imageId := a.imageId
    analysis := a.analysis
    pageNumber := a.pageNumber
    relevanceScore := calculateRelevanceScore chunkContent a.analysis }

/-- ContentChunker._get_chunk_image_context: filter the analyses by
`includedInContext` against the lower-cased chunk content, build the context
records, and sort them by relevance score in descending order (Python's
stable `list.sort(key=..., reverse=True)`, modelled by the stable
`List.mergeSort`). -/
def getChunkImageContext (content : String) (imageAnalyses : List ImageAnalysisResult) :
    List ImageContextEntry :=
  let chunkContent := strToLower content
  let relevantImages := imageAnalyses.filterMap (fun a =>
    if includedInContext chunkContent a then some (toContextEntry chunkContent a) else none)
  relevantImages.mergeSort (fun x y => decide (y.relevanceScore ≤ x.relevanceScore))

/-! ## ContentChunker chunk merging (chunker.py, `merge_small_chunks`) -/

/-- A chunk dictionary as produced by `ContentChunker.chunk_text` and consumed
by `merge_small_chunks`.  The `metadata` mapping is never read by the code
under verification and is omitted; `image_context` and `has_images` are
optional because `chunk_text` alone does not set those keys. -/
structure MergeChunk where
  id : String
  content : String
  chunkIndex : ℕ
  chunkSize : ℕ
  startChar : Int
  endChar : Int
  imageContext : Option (List ImageContextEntry)
  hasImages : Option Bool
deriving DecidableEq

/-- The body of the small-chunk merge: append the next chunk's content with a
blank-line separator, extend the end offset, union the image context lists
and or-combine the has_images flags, exactly as the mutation sequence in
`merge_small_chunks` does. -/
def absorbChunk (current next : MergeChunk) : MergeChunk :=
  { current with
    content := current.content ++ "\n\n" ++ next.content
    endChar := next.endChar
    imageContext :=
      match current.imageContext, next.imageContext with
      | some a, some b => some (a ++ b)
      | none, some b => some b
      | c, none => c
    hasImages := some (current.hasImages.getD false || next.hasImages.getD false) }

/-- The accumulation loop of `merge_small_chunks`: while the current chunk is
shorter than the minimum size it absorbs the next chunk; otherwise it is
emitted and the next chunk becomes current.  The final current chunk is
always emitted. -/
def mergeLoop (minChunkSize : ℕ) (current : MergeChunk) : List MergeChunk → List MergeChunk
  | [] => [current]
  | next :: rest =>
    if current.content.length < minChunkSize then
      mergeLoop minChunkSize (absorbChunk current next) rest
    else
      current :: mergeLoop minChunkSize next rest

/-- The renumbering pass at the end of `merge_small_chunks`: ids and
chunk_index values are rewritten as chunk_{i+1} / i+1. -/
def renumberChunks (chunks : List MergeChunk) : List MergeChunk :=
  mapWithIndex
    (fun i c => { c with id := "chunk_" ++ toString (i + 1), chunkIndex := i + 1 }) 0 chunks

/-- ContentChunker.merge_small_chunks (default min_chunk_size is 200 in the
source; it is a parameter here as in the Python signature). -/
def mergeSmallChunks (chunks : List MergeChunk) (minChunkSize : ℕ) : List MergeChunk :=
  match chunks with
  | [] => []
  | c :: rest => renumberChunks (mergeLoop minChunkSize c rest)

/-! ## ChunkingService (complete_ingestion_pipeline.py) -/

/-- Digit run to number, as `int(...)` does on a digit string. -/
def digitsVal (ds : List Char) : ℕ :=
  ds.foldl (fun acc c => 10 * acc + (c.toNat - 48)) 0

/-- Attempt to match the regex `--- Page (\d+) ---` at the head of the
character list: the literal prefix, then one or more digits, then the literal
closing.  Greedy `\d+` is exact here because the character after the digit
group must be a space. -/
def matchPageMarker (l : List Char) : Option ℕ :=
  let pat := "--- Page ".data
  if prefChars pat l then
    let rest := l.drop pat.length
    let digits := rest.takeWhile Char.isDigit
    if !digits.isEmpty && prefChars " ---".data (rest.drop digits.length) then
      some (digitsVal digits)
    else none
  else none

/-- First match of the page-marker regex, scanning left to right as
`re.search` does. -/
def findPageMarker : List Char → Option ℕ
  | [] => none
  | c :: rest =>
    match matchPageMarker (c :: rest) with
    | some n => some n
    | none => findPageMarker rest

/-- ChunkingService._extract_page_number: the first `--- Page N ---` marker's
number, or 0 when no marker occurs. -/
def extractPageNumber (chunk : String) : ℕ :=
  (findPageMarker chunk.data).getD 0

/-- A chunk dictionary as built by `ChunkingService.chunk_document`. -/
structure ServiceChunk where
  id : String
  content : String
  chunkType : String
  chunkIndex : ℕ
  pageNumber : ℕ
deriving DecidableEq

/-- ChunkingService.chunk_document, with the langchain splitter passed in as
the function `split`.  Text chunks are appended first with chunk_index `i`;
then each visual analysis is appended with chunk_index `len(chunks) + i`,
where `len(chunks)` is read off the *growing* list inside the loop, so at
visual index `i` it equals (number of text chunks) + `i`. -/
def chunkDocument (split : String → List String) (textContent : String)
    (visualAnalysis : List ImageAnalysisResult) : List ServiceChunk :=
  let textChunks := split textContent
  let chunks : List ServiceChunk := mapWithIndex
    (fun i c =>
      { id := "text_chunk_" ++ toString i
        content := c
        chunkType := "text"
        chunkIndex := i
        pageNumber := extractPageNumber c }) 0 textChunks
  chunks ++ mapWithIndex
    (fun i a =>
      { id := "visual_chunk_" ++ toString i
        content := "[Image Summary: " ++ a.analysis ++ "]"
        chunkType := "visual"
        chunkIndex := (chunks.length + i) + i
        pageNumber := a.pageNumber }) 0 visualAnalysis

/-! ## EmbeddingService (pipeline/services/embedding_service.py) -/

/-- The retry ceiling `self.max_retries` (3 in the source). -/
def maxRetries : ℕ := 3

/-- The batch size `self.batch_size` (16 in the source, the Azure limit). -/
def embeddingBatchSize : ℕ := 16

/-- The hard-coded fallback dimension used for zero vectors (1536 in the
source, the text-embedding-ada-002 dimension). -/
def zeroVector : List ℚ := List.replicate 1536 0

/-- The slicing `texts[i : i + batch_size]` for `i = 0, batch_size, ...`:
the input cut into consecutive batches of at most `batchSize` texts.
Mirrors the `range(0, len(texts), self.batch_size)` loop for any
`batchSize ≥ 1` (the source always uses 16). -/
def batchSlices (batchSize : ℕ) : List String → List (List String)
  | [] => []
  | t :: rest =>
    (t :: rest.take (batchSize - 1)) :: batchSlices batchSize (rest.drop (batchSize - 1))
termination_by l => l.length
decreasing_by simp [List.length_drop]; omega

/-- The attempt loop for one batch: try attempts `a, a + 1, ...` while fuel
remains, returning the first successful service response. -/
def firstSuccessFrom (f : ℕ → Option (List (List ℚ))) (a : ℕ) : ℕ → Option (List (List ℚ))
  | 0 => none
  | fuel + 1 =>
    match f a with
    | some r => some r
    | none => firstSuccessFrom f (a + 1) fuel

/-- The body of the per-batch `for attempt in range(self.max_retries)` loop:
the first successful attempt's embeddings are used; if every attempt fails,
the batch contributes one zero vector per input slot.  The service call is
the oracle `svc batch attempt`; `None` models a raised exception.  (The
`time.sleep(self.retry_delay * 2 ** attempt)` between attempts only spends
wall-clock time and has no modelled effect.) -/
def processOneBatch (svc : List String → ℕ → Option (List (List ℚ)))
    (batch : List String) : List (List ℚ) :=
  match firstSuccessFrom (svc batch) 0 maxRetries with
  | some r => r
  | none => List.replicate batch.length zeroVector

/-- EmbeddingService._generate_embeddings_batch: process the input in batches
of `embeddingBatchSize`, extending the accumulator with each batch's result. -/
def generateEmbeddingsBatch (svc : List String → ℕ → Option (List (List ℚ)))
    (texts : List String) : List (List ℚ) :=
  ((batchSlices embeddingBatchSize texts).map (processOneBatch svc)).flatten

/-! ## PDFExtractor drawing clustering (pipeline/extractors/pdf_extractor.py) -/

/-- A bounding rectangle (x0, y0, x1, y1), with float coordinates modelled by
rationals. -/
structure DrawRect where
  x0 : ℚ
  y0 : ℚ
  x1 : ℚ
  y1 : ℚ
deriving DecidableEq

/-- The possible states of a drawing dict's rect entry: the key can be
absent (then `drawing.get('rect', [0, 0, 0, 0])` yields the default, truthy
rectangle), present but falsy (None or an empty sequence), or a real
rectangle. -/
inductive RectEntry
  | missing
  | null
  | rect (r : DrawRect)
deriving DecidableEq

/-- One drawing primitive from `page.get_drawings()`.  The tag stands in for
the remaining dict entries (paths, colors, ...), so distinct primitives stay
distinguishable. -/
structure DrawingPrimitive where
  rectEntry : RectEntry
  tag : ℕ
deriving DecidableEq

instance : Inhabited DrawingPrimitive := ⟨⟨RectEntry.null, 0⟩⟩

/-- Value of `drawing.get('rect', [0, 0, 0, 0])` combined with Python
truthiness: `none` exactly when the looked-up value is falsy (so the later
`if not bbox` guards fire), and the default rectangle when the key is
absent (a non-empty list, hence truthy). -/
def getRect : RectEntry → Option DrawRect
  | .missing => some ⟨0, 0, 0, 0⟩
  | .null => none
  | .rect r => some r

/-- PDFExtractor._are_bboxes_close: false when either bbox is falsy,
otherwise compare the Euclidean distance of the two rectangle centers with
the threshold.  The float square root is avoided by comparing squared
distances, which agrees with the source for the non-negative threshold used
everywhere (the default 50). -/
def areBboxesClose (b1 b2 : Option DrawRect) (threshold : ℚ) : Bool :=
  match b1, b2 with
  | some r1, some r2 =>
    let cx1 := (r1.x0 + r1.x1) / 2
    let cy1 := (r1.y0 + r1.y1) / 2
    let cx2 := (r2.x0 + r2.x1) / 2
    let cy2 := (r2.y0 + r2.y1) / 2
    decide ((cx1 - cx2) ^ 2 + (cy1 - cy2) ^ 2 < threshold ^ 2)
  | _, _ => false

/-- Inner loop of `_group_drawings_by_proximity`: scan the indices `js` in
order, skip used ones, and collect (and mark used) every drawing whose bbox
is close to the anchor bbox `b1`.  Returns the collected group members and
the updated used-set (the Python `set` is a `Finset ℕ` of indices). -/
def proximityInner (ds : List DrawingPrimitive) (b1 : Option DrawRect) (threshold : ℚ) :
    List ℕ → Finset ℕ → List DrawingPrimitive × Finset ℕ
  | [], used => ([], used)
  | j :: js, used =>
    if j ∈ used then proximityInner ds b1 threshold js used
    else
      let d := ds.getD j default
      if areBboxesClose b1 (getRect d.rectEntry) threshold then
        let rec_result := proximityInner ds b1 threshold js (insert j used)
        (d :: rec_result.1, rec_result.2)
      else proximityInner ds b1 threshold js used

/-- Outer loop of `_group_drawings_by_proximity`: each unused index in turn
seeds a new group, is marked used, and gathers close unused drawings via the
inner loop. -/
def proximityOuter (ds : List DrawingPrimitive) (threshold : ℚ) :
    List ℕ → Finset ℕ → List (List DrawingPrimitive)
  | [], _ => []
  | i :: is, used =>
    if i ∈ used then proximityOuter ds threshold is used
    else
      let d := ds.getD i default
      let inner_result := proximityInner ds (getRect d.rectEntry) threshold
        (List.range ds.length) (insert i used)
      (d :: inner_result.1) :: proximityOuter ds threshold is inner_result.2

/-- PDFExtractor._group_drawings_by_proximity (default proximity_threshold
50): empty input short-circuits to no groups; otherwise both loops run over
the index range of the drawing list. -/
def groupDrawingsByProximity (ds : List DrawingPrimitive) (threshold : ℚ) :
    List (List DrawingPrimitive) :=
  match ds with
  | [] => []
  | _ => proximityOuter ds threshold (List.range ds.length) ∅

/-- Modelled from the spec (§4.1 step 2): anchor-based grouping stated
recursively — the first remaining primitive P seeds a group holding P and
every remaining primitive close to P; the rest are grouped the same way.
This is the reference definition claim C8 compares the source loops
against. -/
def anchorGroups (threshold : ℚ) : List DrawingPrimitive → List (List DrawingPrimitive)
  | [] => []
  | p :: rest =>
    let b := getRect p.rectEntry
    (p :: rest.filter (fun q => areBboxesClose b (getRect q.rectEntry) threshold)) ::
      anchorGroups threshold
        (rest.filter (fun q => !areBboxesClose b (getRect q.rectEntry) threshold))
termination_by l => l.length
decreasing_by simp; exact Nat.lt_succ_of_le (List.length_filter_le _ _)

/-- One step of the `_get_drawings_bbox` loop: a member with a truthy
rectangle extends the running min/max box, any other member leaves it
unchanged. -/
def unionStep (acc : Option DrawRect) (d : DrawingPrimitive) : Option DrawRect :=
  match getRect d.rectEntry with
  | none => acc
  | some r =>
    match acc with
    | none => some r
    | some b => some ⟨min b.x0 r.x0, min b.y0 r.y0, max b.x1 r.x1, max b.y1 r.y1⟩

/-- PDFExtractor._get_drawings_bbox: fold the union (componentwise min/max)
of every member's truthy rectangle.  `none` stands for the degenerate box
produced when no member contributes a rectangle (the source's
`Rect(inf, inf, -inf, -inf)`, or `Rect(0, 0, 0, 0)` for an empty group) —
every such box fails the downstream minimum-size check, exactly as the
degenerate boxes do in the source. -/
def unionBbox (g : List DrawingPrimitive) : Option DrawRect :=
  g.foldl unionStep none

/-- Width of a fitz rectangle (x1 - x0). -/
def rectWidth (r : DrawRect) : ℚ := r.x1 - r.x0

/-- Height of a fitz rectangle (y1 - y0). -/
def rectHeight (r : DrawRect) : ℚ := r.y1 - r.y0

/-- One record of `_extract_drawing_elements`'s output list.  The temp-file
path, png format tag and md5 hash are external-world artifacts and are not
modelled; the byte size comes from the external rasterizer. -/
structure VisualElementRecord where
  id : String
  pageNumber : ℕ
  imageIndex : ℕ
  byteSize : ℕ
  bbox : DrawRect
  drawingCount : ℕ
deriving DecidableEq

/-- PDFExtractor._extract_drawing_elements: group the page's drawings by
proximity, then for each group take the union bbox, discard it when its
width or height is below 20 (noise), rasterize the clipped region (the
external `page.get_pixmap`, modelled by the oracle `rasterBytes` giving the
png byte size) and discard results below 100 bytes; survivors become visual
element records.  Groups skipped by either check still advance the
enumeration index, as `enumerate` does in the source. -/
def extractDrawingElements (ds : List DrawingPrimitive) (threshold : ℚ)
    (rasterBytes : DrawRect → ℕ) (filename : String) (pageNum : ℕ) :
    List VisualElementRecord :=
  (mapWithIndex
    (fun i g =>
      match unionBbox g with
      | none => none
      | some b =>
        if rectWidth b < 20 ∨ rectHeight b < 20 then none
        else if rasterBytes b < 100 then none
        else some
          { id := filename ++ "_page" ++ toString (pageNum + 1) ++ "_visual_elem" ++
              toString (i + 1)
            pageNumber := pageNum + 1
            imageIndex := i + 1
            byteSize := rasterBytes b
            bbox := b
            drawingCount := g.length })
    0 (groupDrawingsByProximity ds threshold)).filterMap id

/-! ## CompleteIngestionPipeline (complete_ingestion_pipeline.py) -/

/-- Worker for `baseName`: keep the characters after the last '/'. -/
def baseNameAux : List Char → List Char → List Char
  | [], acc => acc.reverse
  | c :: rest, acc =>
    if c = '/' then baseNameAux rest [] else baseNameAux rest (c :: acc)

/-- Python `Path(file_path).name`: the final path component. -/
def baseName (p : String) : String := String.mk (baseNameAux p.data [])

/-- Metadata attached to a stored blob by `upload_to_storage`.  The
timestamp and version tag strings are external-world values and omitted. -/
structure BlobMetadata where
  fileHash : String
  chunksCreated : ℕ
  chunksUploaded : ℕ
deriving DecidableEq

/-- The Azure blob container as seen through `StorageChecker`: availability
flag plus the name-keyed blobs. -/
structure BlobStore where
  available : Bool
  blobs : List (String × BlobMetadata)
deriving DecidableEq

/-- StorageChecker.file_exists_in_storage: false when storage is unavailable,
otherwise an existence probe for the blob named by the file's base name. -/
def fileExistsInStorage (st : BlobStore) (filePath : String) : Bool :=
  st.available && st.blobs.any (fun b => b.1 == baseName filePath)

/-- Effect of a successful `upload_to_storage` (`overwrite=True`): the blob
is (re)written under `name`. -/
def storeBlob (st : BlobStore) (name : String) (m : BlobMetadata) : BlobStore :=
  { st with blobs := (name, m) :: st.blobs.filter (fun b => b.1 ≠ name) }

/-- The dynamically-typed value Python passes for the `original_filename`
parameter.  The batch wrapper passes a bool here (see
`processBatchWithStorageCheck`), so the model keeps the union of the values
that can actually arrive. -/
inductive PyStrOpt
  | noneVal
  | boolVal (b : Bool)
  | strVal (s : String)
deriving DecidableEq

/-- Python truthiness of a `PyStrOpt` value. -/
def pyTruthy : PyStrOpt → Bool
  | .noneVal => false
  | .boolVal b => b
  | .strVal s => s ≠ ""

/-- The string a truthy `PyStrOpt` denotes when used as a blob name
(`str(True) = "True"` and so on). -/
def pyBlobString : PyStrOpt → String
  | .noneVal => "None"
  | .boolVal b => if b then "True" else "False"
  | .strVal s => s

/-- The external collaborators of one `process_file_with_storage_check` call:
the file system (path to byte content, `none` = missing file), the
multimodal extraction pipeline (`none` = failure; otherwise text content and
visual analyses), the langchain splitter, and the success/failure of the
index upload and the blob upload. -/
structure PipelineEnv where
  fs : String → Option String
  extractDoc : String → Option (String × List ImageAnalysisResult)
  split : String → List String
  searchUploadOk : List ServiceChunk → Bool
  blobUploadOk : String → Bool

/-- Outcome classification of one file run (the result dict's success/status
fields). -/
inductive ProcessStatus
  | fileNotFound
  | skipped
  | extractionFailed
  | embeddingEmpty
  | indexUploadFailed
  | processed
deriving DecidableEq

/-- How much pipeline work a run performed: counts of extraction /
chunking / embedding passes and of index document writes. -/
structure WorkCounts where
  extractions : ℕ
  chunkings : ℕ
  embeddings : ℕ
  indexWrites : ℕ
deriving DecidableEq

/-- No work at all. -/
def noWork : WorkCounts := ⟨0, 0, 0, 0⟩

/-- Result record of one file run. -/
structure ProcessResult where
  status : ProcessStatus
  work : WorkCounts
  chunksCreated : ℕ
  chunksUploaded : ℕ
  blobUploaded : Bool
deriving DecidableEq

/-- The modelled SHA-256 digest of `StorageChecker.get_file_hash`: an
injective stand-in (the byte content itself), which preserves exactly the
identity "same bytes, same hash" the claims rely on. -/
def fileHashOf (content : String) : String := content

/-- CompleteIngestionPipeline.process_file_with_storage_check.  Control flow
follows the source: missing file fails; an existing blob without
force_reprocess short-circuits to skipped before any hash or pipeline work;
otherwise hash, extract, chunk, embed (generate_embeddings returns the chunk
list unchanged in count, so the embedded list is the chunk list), fail on an
empty embedded list, upload to the index, and on index success upload the
blob — named by original_filename when truthy, else the base name — marking
the result processed whether or not the blob upload succeeded.  save_outputs
and auto_cleanup only steer external side effects (saved artifacts, temp
deletion) and are accepted for call-shape fidelity. -/
def processFileWithStorageCheck (env : PipelineEnv) (st : BlobStore) (filePath : String)
    (origFilename : PyStrOpt) (forceReprocess saveOutputs autoCleanup : Bool) :
    ProcessResult × BlobStore :=
  match env.fs filePath with
  | none => (⟨.fileNotFound, noWork, 0, 0, false⟩, st)
  | some content =>
    let fileExists := fileExistsInStorage st filePath
    if fileExists && !forceReprocess then
      (⟨.skipped, noWork, 0, 0, false⟩, st)
    else
      let fileHash := fileHashOf content
      match env.extractDoc filePath with
      | none => (⟨.extractionFailed, ⟨1, 0, 0, 0⟩, 0, 0, false⟩, st)
      | some (text, visuals) =>
        let chunks := chunkDocument env.split text visuals
        let embeddedChunks := chunks
        if embeddedChunks.isEmpty then
          (⟨.embeddingEmpty, ⟨1, 1, 1, 0⟩, chunks.length, 0, false⟩, st)
        else if env.searchUploadOk embeddedChunks then
          let blobName :=
            if pyTruthy origFilename then pyBlobString origFilename else baseName filePath
          if st.available && env.blobUploadOk blobName then
            (⟨.processed, ⟨1, 1, 1, embeddedChunks.length⟩, chunks.length,
                embeddedChunks.length, true⟩,
              storeBlob st blobName ⟨fileHash, chunks.length, embeddedChunks.length⟩)
          else
            (⟨.processed, ⟨1, 1, 1, embeddedChunks.length⟩, chunks.length,
                embeddedChunks.length, false⟩, st)
        else
          (⟨.indexUploadFailed, ⟨1, 1, 1, 0⟩, chunks.length, 0, false⟩, st)

/-- CompleteIngestionPipeline.process_batch_with_storage_check.  The source
forwards four positional arguments —
`self.process_file_with_storage_check(file_path, force_reprocess,
save_outputs, auto_cleanup)` — against the callee signature
`(file_path, original_filename=None, force_reprocess=False,
save_outputs=False, auto_cleanup=True)`, so `force_reprocess` lands in
`original_filename`, `save_outputs` in `force_reprocess`, `auto_cleanup` in
`save_outputs`, and `auto_cleanup` takes its default `True`. -/
def processBatchWithStorageCheck (env : PipelineEnv) (st : BlobStore)
    (filePaths : List String) (forceReprocess saveOutputs autoCleanup : Bool) :
    List ProcessResult × BlobStore :=
  match filePaths with
  | [] => ([], st)
  | p :: ps =>
    let one := processFileWithStorageCheck env st p (.boolVal forceReprocess)
      saveOutputs autoCleanup true
    let rest := processBatchWithStorageCheck env one.2 ps forceReprocess saveOutputs autoCleanup
    (one.1 :: rest.1, rest.2)

/-! ## Concrete demo inputs used by the scenario theorems -/

/-- Scenario primitive with center (5, 5). -/
def scenP1 : DrawingPrimitive := ⟨RectEntry.rect ⟨0, 0, 10, 10⟩, 1⟩

/-- Scenario primitive with center (15, 5), 10 units from the first. -/
def scenP2 : DrawingPrimitive := ⟨RectEntry.rect ⟨10, 0, 20, 10⟩, 2⟩

/-- Scenario primitive with center (505, 5), 500 units from the first. -/
def scenP3 : DrawingPrimitive := ⟨RectEntry.rect ⟨500, 0, 510, 10⟩, 3⟩

/-- Demo environment: two distinct paths with byte-identical content (hence
identical content hash) plus one pre-stored document; extraction, splitting
and the index/store uploads all succeed. -/
def demoEnv : PipelineEnv where
  fs := fun p =>
    if p == "docs/a.txt" || p == "docs/b.txt" || p == "docs/doc.pdf" then
      some "SAME-BYTES"
    else none
  extractDoc := fun _ => some ("hello world", [])
  split := fun t => [t]
  searchUploadOk := fun _ => true
  blobUploadOk := fun _ => true

/-- An available, empty blob store. -/
def emptyStore : BlobStore := ⟨true, []⟩

/-- An available store already holding the blob "doc.pdf". -/
def docStore : BlobStore := ⟨true, [("doc.pdf", ⟨"SAME-BYTES", 1, 1⟩)]⟩

/-! ## Theorems -/

/-- General fact used by claim C6's counterexample: a shared token makes the
relevance score strictly positive. -/
theorem relevance_pos_of_shared_token (c a : String)
    (h : wordList c ∩ wordList a ≠ []) : 0 < calculateRelevanceScore c a := by
  have hc0 : wordList c ≠ [] := by
    intro hc
    exact h (by simp [hc, List.inter])
  have ha0 : wordList a ≠ [] := by
    intro hany
    refine h (List.filter_eq_nil_iff.mpr ?_)
    intro x _
    simp [hany]
  obtain ⟨x, hx⟩ := List.exists_mem_of_ne_nil _ h
  have hxa : x ∈ wordList a := (List.mem_inter_iff.mp hx).2
  have htotal : 0 < (wordList c ∪ wordList a).length :=
    List.length_pos.mpr (List.ne_nil_of_mem (List.mem_union_right _ hxa))
  have hoverlap : 0 < (wordList c ∩ wordList a).length := List.length_pos.mpr h
  simp only [calculateRelevanceScore]
  rw [if_neg (by simp [hc0, ha0]), if_pos htotal]
  exact div_pos (by exact_mod_cast hoverlap) (by exact_mod_cast htotal)

/-- C5: for every chunk/analysis pair the relevance score lies in [0, 1]; it
is 0 when the lower-cased word sets share no token, and 1 when those word
sets are identical and non-empty. -/
theorem relevance_score_bounds (c a : String) :
    (0 ≤ calculateRelevanceScore c a ∧ calculateRelevanceScore c a ≤ 1) ∧
    (wordSet c ∩ wordSet a = ∅ → calculateRelevanceScore c a = 0) ∧
    (wordSet c = wordSet a ∧ wordSet c ≠ ∅ → calculateRelevanceScore c a = 1) := by
  have hc : (wordList c).Nodup := List.nodup_dedup _
  have ha : (wordList a).Nodup := List.nodup_dedup _
  have hinter : (wordList c ∩ wordList a).length = (wordSet c ∩ wordSet a).card := by
    rw [wordSet, wordSet, ← List.toFinset_inter, List.toFinset_card_of_nodup (hc.inter _)]
  have hunion : (wordList c ∪ wordList a).length = (wordSet c ∪ wordSet a).card := by
    rw [wordSet, wordSet, ← List.toFinset_union,
      List.toFinset_card_of_nodup (List.Nodup.union _ ha)]
  simp only [calculateRelevanceScore]
  by_cases hempty : wordList c = [] ∨ wordList a = []
  · rw [if_pos hempty]
    refine ⟨⟨le_refl 0, zero_le_one⟩, fun _ => rfl, ?_⟩
    rintro ⟨hset, hne⟩
    exfalso
    rcases hempty with h | h
    · exact hne (by simp [wordSet, h])
    · exact hne (by rw [hset]; simp [wordSet, h])
  · rw [if_neg hempty]
    push_neg at hempty
    obtain ⟨hc0, _⟩ := hempty
    have hcne : (wordSet c).Nonempty := by
      rw [Finset.nonempty_iff_ne_empty]
      simpa [wordSet, List.toFinset_eq_empty_iff] using hc0
    have hucard : 0 < (wordSet c ∪ wordSet a).card :=
      Finset.card_pos.mpr (hcne.mono Finset.subset_union_left)
    have htotal : 0 < (wordList c ∪ wordList a).length := by rw [hunion]; exact hucard
    rw [if_pos htotal]
    have htotQ : (0 : ℚ) < ((wordList c ∪ wordList a).length : ℚ) := by
      exact_mod_cast htotal
    refine ⟨⟨div_nonneg (by positivity) (le_of_lt htotQ), ?_⟩, ?_, ?_⟩
    · rw [div_le_one htotQ]
      have hsub : wordSet c ∩ wordSet a ⊆ wordSet c ∪ wordSet a :=
        Finset.inter_subset_left.trans Finset.subset_union_left
      have := Finset.card_le_card hsub
      rw [← hinter, ← hunion] at this
      exact_mod_cast this
    · intro hdisj
      have : (wordList c ∩ wordList a).length = 0 := by rw [hinter, hdisj]; rfl
      rw [this]
      simp
    · rintro ⟨hset, _⟩
      have : (wordList c ∩ wordList a).length = (wordList c ∪ wordList a).length := by
        rw [hinter, hunion, hset, Finset.inter_self, Finset.union_self]
      rw [this]
      exact div_self (ne_of_gt htotQ)

/-- Witness for C5: identical non-empty token sets score exactly 1. -/
theorem relevance_score_bounds_witness :
    calculateRelevanceScore "Alpha beta" "beta  alpha" = 1 :=
  (relevance_score_bounds "Alpha beta" "beta  alpha").2.2 ⟨by decide, by decide⟩

/-- Counterexample to C6 as stated: the analysis text shares the token
"zebra" with the chunk, so the relevance score is positive, yet the
inclusion test only looks at the first ten words of the analysis (and the
image id), so the analysis is not attached to the chunk's image context. -/
theorem image_context_counterexample :
    0 < calculateRelevanceScore "zebra" "w1 w2 w3 w4 w5 w6 w7 w8 w9 w10 zebra" ∧
    getChunkImageContext "zebra"
      [⟨true, "img9", "w1 w2 w3 w4 w5 w6 w7 w8 w9 w10 zebra", 1⟩] = [] := by
  constructor
  · exact relevance_pos_of_shared_token _ _ (by decide)
  · have hincl : includedInContext (strToLower "zebra")
        ⟨true, "img9", "w1 w2 w3 w4 w5 w6 w7 w8 w9 w10 zebra", 1⟩ = false := by decide
    simp [getChunkImageContext, hincl]

/-- C6 (amended): an analysis appears in a chunk's image_context exactly when
it succeeded and either its lower-cased image id or one of the first ten
lower-cased words of its analysis text occurs as a substring of the
lower-cased chunk content; the resulting list is sorted in descending order
of relevance score. -/
theorem image_context_amended (content : String) (analyses : List ImageAnalysisResult) :
    List.Pairwise (fun x y => y.relevanceScore ≤ x.relevanceScore)
      (getChunkImageContext content analyses) ∧
    (∀ r ∈ getChunkImageContext content analyses, ∃ a ∈ analyses,
      includedInContext (strToLower content) a = true ∧
        r = toContextEntry (strToLower content) a) ∧
    (∀ a ∈ analyses, includedInContext (strToLower content) a = true →
      toContextEntry (strToLower content) a ∈ getChunkImageContext content analyses) := by
  refine ⟨?_, ?_, ?_⟩
  · have h := @List.sorted_mergeSort ImageContextEntry
      (fun x y => decide (y.relevanceScore ≤ x.relevanceScore))
      (fun a b c h1 h2 => by
        simp only [decide_eq_true_eq] at h1 h2 ⊢
        exact le_trans h2 h1)
      (fun a b => by
        simp only [Bool.or_eq_true, decide_eq_true_eq]
        exact le_total b.relevanceScore a.relevanceScore)
      (analyses.filterMap (fun a =>
        if includedInContext (strToLower content) a then
          some (toContextEntry (strToLower content) a) else none))
    exact h.imp (fun hab => of_decide_eq_true hab)
  · intro r hr
    simp only [getChunkImageContext, List.mem_mergeSort] at hr
    obtain ⟨a, ha, heq⟩ := List.mem_filterMap.mp hr
    by_cases hI : includedInContext (strToLower content) a = true
    · rw [if_pos hI] at heq
      exact ⟨a, ha, hI, (Option.some_inj.mp heq).symm⟩
    · rw [if_neg hI] at heq
      cases heq
  · intro a ha hI
    simp only [getChunkImageContext, List.mem_mergeSort]
    exact List.mem_filterMap.mpr ⟨a, ha, by rw [hI]; rfl⟩

/-- Witness for C6 (amended): an analysis whose first word occurs in the
chunk is attached. -/
theorem image_context_amended_witness :
    toContextEntry (strToLower "cat dog") ⟨true, "imgA", "cat", 1⟩ ∈
      getChunkImageContext "cat dog" [⟨true, "imgA", "cat", 1⟩] :=
  (image_context_amended "cat dog" [⟨true, "imgA", "cat", 1⟩]).2.2 _ (by decide) (by decide)

/-- The merge loop always emits at least the final current chunk. -/
theorem mergeLoop_ne_nil (m : ℕ) :
    ∀ (rest : List MergeChunk) (cur : MergeChunk), mergeLoop m cur rest ≠ [] := by
  intro rest
  induction rest with
  | nil => intro cur; simp [mergeLoop]
  | cons next rest ih =>
    intro cur
    rw [mergeLoop]
    by_cases hlen : cur.content.length < m
    · rw [if_pos hlen]; exact ih _
    · rw [if_neg hlen]; simp

/-- Every chunk the merge loop emits before its last one passed the
minimum-size test. -/
theorem mergeLoop_dropLast (m : ℕ) :
    ∀ (rest : List MergeChunk) (cur : MergeChunk),
      ∀ c ∈ (mergeLoop m cur rest).dropLast, m ≤ c.content.length := by
  intro rest
  induction rest with
  | nil => intro cur c hc; simp [mergeLoop] at hc
  | cons next rest ih =>
    intro cur c hc
    rw [mergeLoop] at hc
    by_cases hlen : cur.content.length < m
    · rw [if_pos hlen] at hc
      exact ih _ c hc
    · rw [if_neg hlen] at hc
      rw [List.dropLast_cons_of_ne_nil (mergeLoop_ne_nil m rest next)] at hc
      rcases List.mem_cons.mp hc with hceq | hcmem
      · subst hceq; omega
      · exact ih _ c hcmem

/-- Renumbering touches only ids and indices, never contents. -/
theorem renumber_contents :
    ∀ (l : List MergeChunk) (k : ℕ),
      (mapWithIndex
        (fun i c =>
          { c with id := "chunk_" ++ toString (i + 1), chunkIndex := i + 1 }) k l).map
        (fun c => c.content) = l.map (fun c => c.content) := by
  intro l
  induction l with
  | nil => intro k; rfl
  | cons c rest ih => intro k; simp [mapWithIndex, ih]

/-- Contents of `renumberChunks`, stated on the wrapper. -/
theorem renumberChunks_contents (l : List MergeChunk) :
    (renumberChunks l).map (fun c => c.content) = l.map (fun c => c.content) := by
  simpa [renumberChunks] using renumber_contents l 0

/-- Renumbering preserves the list length. -/
theorem renumber_length (l : List MergeChunk) : (renumberChunks l).length = l.length := by
  have := congrArg List.length (renumberChunks_contents l)
  simpa using this

/-- C10: merging a non-empty chunk list yields a non-empty list in which
every chunk except possibly the last has content length at least
min_chunk_size (the trailing chunk is emitted even when it stays short). -/
theorem merge_small_chunks_bound (chunks : List MergeChunk) (minChunkSize : ℕ)
    (h : chunks ≠ []) :
    mergeSmallChunks chunks minChunkSize ≠ [] ∧
    ∀ c ∈ (mergeSmallChunks chunks minChunkSize).dropLast,
      minChunkSize ≤ c.content.length := by
  match chunks with
  | [] => exact absurd rfl h
  | c0 :: rest =>
    constructor
    · intro hnil
      have hlen := renumber_length (mergeLoop minChunkSize c0 rest)
      rw [mergeSmallChunks] at hnil
      rw [hnil] at hlen
      exact mergeLoop_ne_nil minChunkSize rest c0 (List.length_eq_zero.mp hlen.symm)
    · intro c hc
      rw [mergeSmallChunks] at hc
      have hmem : c.content ∈
          ((renumberChunks (mergeLoop minChunkSize c0 rest)).dropLast).map
            (fun x => x.content) := List.mem_map_of_mem _ hc
      rw [List.map_dropLast, renumberChunks_contents, ← List.map_dropLast] at hmem
      obtain ⟨y, hy, hyc⟩ := List.mem_map.mp hmem
      have := mergeLoop_dropLast minChunkSize rest c0 y hy
      have hl : y.content.length = c.content.length := by rw [hyc]
      omega

/-- Witness for C10 at a concrete one-chunk input. -/
theorem merge_small_chunks_bound_witness :
    mergeSmallChunks [⟨"chunk_1", "hi", 1, 2, 0, 2, none, none⟩] 200 ≠ [] :=
  (merge_small_chunks_bound [⟨"chunk_1", "hi", 1, 2, 0, 2, none, none⟩] 200 (by decide)).1

/-- Index extraction over an enumerate-style map that stores the running
index, for any start value. -/
theorem mapWithIndex_chunkIndex_range (h : ℕ → String → ServiceChunk)
    (hidx : ∀ i c, (h i c).chunkIndex = i) :
    ∀ (l : List String) (k : ℕ),
      (mapWithIndex h k l).map (fun c => c.chunkIndex) = List.range' k l.length := by
  intro l
  induction l with
  | nil => intro k; rfl
  | cons c rest ih =>
    intro k
    simp [mapWithIndex, hidx, List.range'_succ, ih]

/-- C3 evidence, part and counter-part: with no visual analyses the
chunk_index values of `chunk_document` are the contiguous 0-based range, but
one text chunk plus two visual analyses yields indices [0, 1, 3] — the
visual loop reads `len(chunks)` off the growing list and adds the loop
index on top, so every visual chunk after the first skips an index. -/
theorem chunk_document_index_gap :
    (∀ (split : String → List String) (text : String),
      (chunkDocument split text []).map (fun c => c.chunkIndex) =
        List.range (split text).length) ∧
    (chunkDocument (fun t => [t]) "hello"
      [⟨true, "img1", "first", 1⟩, ⟨true, "img2", "second", 2⟩]).map
        (fun c => c.chunkIndex) = [0, 1, 3] ∧
    [0, 1, 3] ≠ List.range 3 := by
  refine ⟨?_, by decide, by decide⟩
  intro split text
  simp only [chunkDocument, mapWithIndex, List.append_nil]
  rw [List.range_eq_range']
  exact mapWithIndex_chunkIndex_range _ (fun i c => rfl) (split text) 0

/-- Concatenating the batch slices recovers the input text list. -/
theorem flatten_batchSlices (bs : ℕ) (l : List String) :
    (batchSlices bs l).flatten = l := by
  induction l using batchSlices.induct bs with
  | case1 => simp [batchSlices]
  | case2 t rest ih =>
    rw [batchSlices]
    simp [ih]

/-- A successful retry loop returns a value some attempt produced. -/
theorem firstSuccessFrom_some (f : ℕ → Option (List (List ℚ))) :
    ∀ (fuel a : ℕ) (r : List (List ℚ)),
      firstSuccessFrom f a fuel = some r → ∃ x, f x = some r := by
  intro fuel
  induction fuel with
  | zero => intro a r h; cases h
  | succ n ih =>
    intro a r h
    rw [firstSuccessFrom] at h
    cases hf : f a with
    | some s =>
      rw [hf] at h
      exact ⟨a, hf.trans (congrArg some (Option.some_inj.mp h))⟩
    | none =>
      rw [hf] at h
      exact ih (a + 1) r h

/-- When every attempt in range fails, the retry loop fails. -/
theorem firstSuccessFrom_none (f : ℕ → Option (List (List ℚ))) :
    ∀ (fuel a : ℕ), (∀ x, a ≤ x → x < a + fuel → f x = none) →
      firstSuccessFrom f a fuel = none := by
  intro fuel
  induction fuel with
  | zero => intro a _; rfl
  | succ n ih =>
    intro a h
    rw [firstSuccessFrom]
    have hfa : f a = none := h a (le_refl a) (by omega)
    rw [hfa]
    exact ih (a + 1) (fun x hx1 hx2 => h x (by omega) (by omega))

/-- Replicated zero-vector batches flatten to one replicated list of the
total length. -/
theorem flatten_map_replicate (B : List (List String)) :
    (B.map (fun b => List.replicate b.length zeroVector)).flatten =
      List.replicate B.flatten.length zeroVector := by
  induction B with
  | nil => rfl
  | cons b rest ih =>
    rw [List.map_cons, List.flatten_cons, ih, List.flatten_cons, List.length_append,
      List.replicate_add]

/-- C1: the embedding batcher preserves cardinality.  First conjunct: when
every successful service response has one vector per input (the service
contract), the output has exactly one vector per input text.  Second
conjunct: when every attempt of every batch fails, the output is exactly one
1536-dimensional zero vector per input text.  Third conjunct: a batch whose
first attempt fails but whose second succeeds contributes the second
attempt's vectors (the retry loop picks the first success). -/
theorem embedding_batcher_cardinality (texts : List String)
    (svc : List String → ℕ → Option (List (List ℚ))) :
    ((∀ batch a r, svc batch a = some r → r.length = batch.length) →
      (generateEmbeddingsBatch svc texts).length = texts.length) ∧
    ((∀ batch a, a < maxRetries → svc batch a = none) →
      generateEmbeddingsBatch svc texts = List.replicate texts.length zeroVector) ∧
    (∀ batch r, svc batch 0 = none → svc batch 1 = some r →
      processOneBatch svc batch = r) := by
  refine ⟨?_, ?_, ?_⟩
  · intro H
    have hone : ∀ batch, (processOneBatch svc batch).length = batch.length := by
      intro batch
      rw [processOneBatch]
      cases hfs : firstSuccessFrom (svc batch) 0 maxRetries with
      | some r =>
        obtain ⟨x, hx⟩ := firstSuccessFrom_some (svc batch) maxRetries 0 r hfs
        exact H batch x r hx
      | none => exact List.length_replicate _ _
    rw [generateEmbeddingsBatch, List.length_flatten, List.map_map]
    have : ((batchSlices embeddingBatchSize texts).map
        (List.length ∘ processOneBatch svc)).sum =
        ((batchSlices embeddingBatchSize texts).map List.length).sum := by
      congr 1
      exact List.map_congr_left (fun b _ => hone b)
    rw [this, ← List.length_flatten, flatten_batchSlices]
  · intro H
    have hone : ∀ batch, processOneBatch svc batch = List.replicate batch.length zeroVector := by
      intro batch
      rw [processOneBatch, firstSuccessFrom_none (svc batch) maxRetries 0
        (fun x _ hx2 => H batch x (by omega))]
    have hmap : (batchSlices embeddingBatchSize texts).map (processOneBatch svc) =
        (batchSlices embeddingBatchSize texts).map
          (fun b => List.replicate b.length zeroVector) :=
      List.map_congr_left (fun b _ => hone b)
    rw [generateEmbeddingsBatch, hmap, flatten_map_replicate, flatten_batchSlices]
  · intro batch r h0 h1
    simp [processOneBatch, maxRetries, firstSuccessFrom, h0, h1]

/-- Witness for C1: a service that always fails still yields two vectors for
two texts, both zero. -/
theorem embedding_batcher_cardinality_witness :
    generateEmbeddingsBatch (fun _ _ => none) ["a", "b"] =
      List.replicate 2 zeroVector :=
  (embedding_batcher_cardinality ["a", "b"] (fun _ _ => none)).2.1
    (fun _ _ _ => rfl)

/-- A store whose blob list contains the file's base name reports the file
as existing (when storage is available). -/
theorem fileExistsInStorage_of_mem (st : BlobStore) (filePath : String)
    (hav : st.available = true)
    (hmem : baseName filePath ∈ st.blobs.map Prod.fst) :
    fileExistsInStorage st filePath = true := by
  rw [fileExistsInStorage, hav, Bool.true_and, List.any_eq_true]
  obtain ⟨b, hb, heq⟩ := List.mem_map.mp hmem
  exact ⟨b, hb, by simp [heq]⟩

/-- Skip short-circuit: an available store holding the file's base name plus
force off yields the skipped result with no work and no state change. -/
theorem skip_of_name_exists (env : PipelineEnv) (st : BlobStore) (filePath : String)
    (orig : PyStrOpt) (save clean : Bool) (hav : st.available = true)
    (hmem : baseName filePath ∈ st.blobs.map Prod.fst)
    (hfs : (env.fs filePath).isSome) :
    processFileWithStorageCheck env st filePath orig false save clean =
      (⟨.skipped, noWork, 0, 0, false⟩, st) := by
  cases hE : env.fs filePath with
  | none => rw [hE] at hfs; cases hfs
  | some content =>
    have hex := fileExistsInStorage_of_mem st filePath hav hmem
    simp [processFileWithStorageCheck, hE, hex]

/-- C2 (amended): the dedup short-circuit is keyed by blob *name*.  Part 1:
when storage is available, a blob with the file's base name exists and force
is off, the run returns skipped with zero work and an unchanged store.
Part 2: after a first run whose blob upload succeeded, re-running the same
path with force off yields skipped with zero work. -/
theorem dedup_skip_keyed_by_filename (env : PipelineEnv) (st : BlobStore)
    (filePath : String) (orig : PyStrOpt) (save clean : Bool) :
    (st.available = true → baseName filePath ∈ st.blobs.map Prod.fst →
      (env.fs filePath).isSome →
      processFileWithStorageCheck env st filePath orig false save clean =
        (⟨.skipped, noWork, 0, 0, false⟩, st)) ∧
    ((processFileWithStorageCheck env st filePath .noneVal false save clean).1.blobUploaded =
        true →
      (processFileWithStorageCheck env
          (processFileWithStorageCheck env st filePath .noneVal false save clean).2
          filePath .noneVal false save clean).1 =
        ⟨.skipped, noWork, 0, 0, false⟩) := by
  constructor
  · exact fun hav hmem hfs => skip_of_name_exists env st filePath orig save clean hav hmem hfs
  · intro hup
    cases hE : env.fs filePath with
    | none =>
      rw [processFileWithStorageCheck, hE] at hup
      simp at hup
    | some content =>
      rw [processFileWithStorageCheck, hE] at hup
      by_cases hex : fileExistsInStorage st filePath = true
      · simp [hex] at hup
      · rw [Bool.not_eq_true] at hex
        cases hX : env.extractDoc filePath with
        | none => rw [hX] at hup; simp [hex] at hup
        | some tv =>
          obtain ⟨text, visuals⟩ := tv
          rw [hX] at hup
          by_cases hemp : (chunkDocument env.split text visuals).isEmpty = true
          · simp [hex, hemp] at hup
          · by_cases hsearch :
                env.searchUploadOk (chunkDocument env.split text visuals) = true
            · by_cases hblob :
                  (st.available && env.blobUploadOk (baseName filePath)) = true
              · have hav : st.available = true := by
                  revert hblob; cases st.available <;> simp
                have hst2 : (processFileWithStorageCheck env st filePath .noneVal
                    false save clean).2 =
                    storeBlob st (baseName filePath)
                      ⟨fileHashOf content, (chunkDocument env.split text visuals).length,
                        (chunkDocument env.split text visuals).length⟩ := by
                  rw [processFileWithStorageCheck, hE]
                  simp [hex, hX, hemp, hsearch, hblob, pyTruthy, pyBlobString]
                rw [hst2,
                  skip_of_name_exists env
                    (storeBlob st (baseName filePath)
                      ⟨fileHashOf content, (chunkDocument env.split text visuals).length,
                        (chunkDocument env.split text visuals).length⟩)
                    filePath .noneVal save clean hav
                    (by simp [storeBlob]) (by rw [hE]; rfl)]
              · simp [hex, hemp, hsearch, hblob, pyTruthy, pyBlobString] at hup
            · simp [hex, hemp, hsearch] at hup

/-- Counterexample to C2 as stated: the second run processes a file whose
byte content (hence content hash) equals the first run's, but under a
different name — it is fully re-processed (extraction runs, status
processed), not skipped, because the existence check keys on the blob name. -/
theorem dedup_hash_counterexample :
    demoEnv.fs "docs/a.txt" = demoEnv.fs "docs/b.txt" ∧
    (processFileWithStorageCheck demoEnv emptyStore "docs/a.txt"
      .noneVal false false true).1.status = ProcessStatus.processed ∧
    (processFileWithStorageCheck demoEnv emptyStore "docs/a.txt"
      .noneVal false false true).1.blobUploaded = true ∧
    (processFileWithStorageCheck demoEnv
      (processFileWithStorageCheck demoEnv emptyStore "docs/a.txt"
        .noneVal false false true).2
      "docs/b.txt" .noneVal false false true).1.status = ProcessStatus.processed ∧
    (processFileWithStorageCheck demoEnv
      (processFileWithStorageCheck demoEnv emptyStore "docs/a.txt"
        .noneVal false false true).2
      "docs/b.txt" .noneVal false false true).1.work.extractions = 1 := by
  decide

/-- Witness for C2 (amended): a stored name short-circuits to skipped. -/
theorem dedup_skip_keyed_by_filename_witness :
    processFileWithStorageCheck demoEnv docStore "docs/doc.pdf" .noneVal false false true =
      (⟨.skipped, noWork, 0, 0, false⟩, docStore) :=
  (dedup_skip_keyed_by_filename demoEnv docStore "docs/doc.pdf" .noneVal false true).1
    rfl (by decide) (by decide)

/-- C4 evidence: the batch wrapper passes its arguments positionally, so
force_reprocess lands in original_filename and the callee's force flag takes
save_outputs' value.  At the failing input (a file already in storage,
batch called with force_reprocess = true, save_outputs = false) the batch
run skips the file and performs no work, while the direct single-file call
with force_reprocess = true re-runs the whole pipeline; in general a direct
call with force on never skips. -/
theorem batch_force_reprocess_lost :
    ((processBatchWithStorageCheck demoEnv docStore ["docs/doc.pdf"] true false true).1.map
      (fun r => r.status) = [ProcessStatus.skipped]) ∧
    ((processBatchWithStorageCheck demoEnv docStore ["docs/doc.pdf"] true false true).1.map
      (fun r => r.work) = [noWork]) ∧
    (processBatchWithStorageCheck demoEnv docStore ["docs/doc.pdf"] true false true).2 =
      docStore ∧
    (processFileWithStorageCheck demoEnv docStore "docs/doc.pdf"
      .noneVal true false true).1.status = ProcessStatus.processed ∧
    (∀ (env : PipelineEnv) (st : BlobStore) (filePath : String) (orig : PyStrOpt)
      (save clean : Bool),
      (processFileWithStorageCheck env st filePath orig true save clean).1.status ≠
        ProcessStatus.skipped) := by
  refine ⟨by decide, by decide, by decide, by decide, ?_⟩
  intro env st filePath orig save clean
  cases hE : env.fs filePath with
  | none =>
    rw [processFileWithStorageCheck, hE]
    simp
  | some content =>
    cases hX : env.extractDoc filePath with
    | none =>
      rw [processFileWithStorageCheck, hE]
      simp [hX]
    | some tv =>
      rcases tv with ⟨text, visuals⟩
      rw [processFileWithStorageCheck, hE]
      simp only [hX, Bool.not_true, Bool.and_false, Bool.false_eq_true, if_false]
      split_ifs <;> simp

theorem proximityInner_spec (ds : List DrawingPrimitive) (b1 : Option DrawRect) (t : ℚ) :
    ∀ (js : List ℕ) (used : Finset ℕ), js.Nodup →
      proximityInner ds b1 t js used =
        ((js.filter (fun j => decide (j ∉ used) &&
            areBboxesClose b1 (getRect (ds.getD j default).rectEntry) t)).map
          (fun j => ds.getD j default),
         used ∪ (js.filter (fun j => decide (j ∉ used) &&
            areBboxesClose b1 (getRect (ds.getD j default).rectEntry) t)).toFinset) := by
  intro js
  induction js with
  | nil => intro used _; simp [proximityInner]
  | cons j js ih =>
    intro used hnd
    obtain ⟨hj, hnd'⟩ := List.nodup_cons.mp hnd
    rw [proximityInner]
    by_cases hju : j ∈ used
    · rw [if_pos hju, ih used hnd']
      have hfilter : (j :: js).filter (fun j => decide (j ∉ used) &&
          areBboxesClose b1 (getRect (ds.getD j default).rectEntry) t) =
          js.filter (fun j => decide (j ∉ used) &&
            areBboxesClose b1 (getRect (ds.getD j default).rectEntry) t) := by
        rw [List.filter_cons_of_neg]
        simp [hju]
      rw [hfilter]
    · rw [if_neg hju]
      by_cases hclose : areBboxesClose b1 (getRect (ds.getD j default).rectEntry) t = true
      · rw [if_pos hclose, ih (insert j used) hnd']
        have hfilter2 : js.filter (fun i => decide (i ∉ insert j used) &&
            areBboxesClose b1 (getRect (ds.getD i default).rectEntry) t) =
            js.filter (fun i => decide (i ∉ used) &&
              areBboxesClose b1 (getRect (ds.getD i default).rectEntry) t) := by
          apply List.filter_congr
          intro i hi
          have : i ≠ j := fun h => hj (h ▸ hi)
          simp [Finset.mem_insert, this]
        have hfilter1 : (j :: js).filter (fun i => decide (i ∉ used) &&
            areBboxesClose b1 (getRect (ds.getD i default).rectEntry) t) =
            j :: js.filter (fun i => decide (i ∉ used) &&
              areBboxesClose b1 (getRect (ds.getD i default).rectEntry) t) := by
          rw [List.filter_cons_of_pos]
          simp only [Bool.and_eq_true, decide_eq_true_eq]
          exact ⟨hju, hclose⟩
        rw [hfilter2, hfilter1, List.map_cons, List.toFinset_cons, Prod.mk.injEq]
        refine ⟨rfl, ?_⟩
        ext x
        simp only [Finset.mem_union, Finset.mem_insert, List.mem_toFinset]
        tauto
      · rw [if_neg hclose, ih used hnd']
        have hfilter : (j :: js).filter (fun i => decide (i ∉ used) &&
            areBboxesClose b1 (getRect (ds.getD i default).rectEntry) t) =
            js.filter (fun i => decide (i ∉ used) &&
              areBboxesClose b1 (getRect (ds.getD i default).rectEntry) t) := by
          rw [List.filter_cons_of_neg]
          simp only [Bool.and_eq_true, decide_eq_true_eq]
          exact fun h => hclose h.2
        rw [hfilter]

theorem mem_range'_lt {j s n : ℕ} (h : j ∈ List.range' s n) : s ≤ j ∧ j < s + n :=
  List.mem_range'_1.mp h

theorem proximityOuter_spec (ds : List DrawingPrimitive) (t : ℚ) :
    ∀ (k i : ℕ) (used : Finset ℕ), i + k = ds.length →
      (∀ j, j < i → j ∈ used) →
      proximityOuter ds t (List.range' i k) used =
        anchorGroups t
          (((List.range' i k).filter (fun j => decide (j ∉ used))).map
            (fun j => ds.getD j default)) := by
  intro k
  induction k with
  | zero => intro i used _ _; simp [proximityOuter, anchorGroups]
  | succ k ih =>
    intro i used hik hlt
    rw [List.range'_succ, proximityOuter]
    by_cases hiu : i ∈ used
    · rw [if_pos hiu]
      have hskip : (i :: List.range' (i + 1) k).filter (fun j => decide (j ∉ used)) =
          (List.range' (i + 1) k).filter (fun j => decide (j ∉ used)) := by
        rw [List.filter_cons_of_neg]
        simp [hiu]
      rw [hskip]
      exact ih (i + 1) used (by omega) (fun j hj => by
        rcases Nat.lt_succ_iff_lt_or_eq.mp hj with h | h
        · exact hlt j h
        · exact h ▸ hiu)
    · rw [if_neg hiu]
      simp only []
      rw [proximityInner_spec ds (getRect (ds.getD i default).rectEntry) t
        (List.range ds.length) (insert i used) (List.nodup_range _)]
      simp only []
      have hrangesplit : List.range ds.length =
          List.range' 0 (i + 1) ++ List.range' (i + 1) k := by
        rw [List.range_eq_range']
        have hn : ds.length = k + (i + 1) := by omega
        rw [hn, ← List.range'_append 0 (i + 1) k 1]
        simp
      have hfilterfull :
          (List.range ds.length).filter
            (fun j => decide (j ∉ insert i used) &&
              areBboxesClose (getRect (ds.getD i default).rectEntry)
                (getRect (ds.getD j default).rectEntry) t) =
          (List.range' (i + 1) k).filter
            (fun j => decide (j ∉ used) &&
              areBboxesClose (getRect (ds.getD i default).rectEntry)
                (getRect (ds.getD j default).rectEntry) t) := by
        rw [hrangesplit, List.filter_append]
        have h1 : (List.range' 0 (i + 1)).filter
            (fun j => decide (j ∉ insert i used) &&
              areBboxesClose (getRect (ds.getD i default).rectEntry)
                (getRect (ds.getD j default).rectEntry) t) = [] := by
          rw [List.filter_eq_nil_iff]
          intro j hj
          have hjle := (mem_range'_lt hj).2
          simp only [Bool.and_eq_true, decide_eq_true_eq, Finset.mem_insert, not_or]
          intro h
          rcases Nat.lt_succ_iff_lt_or_eq.mp (by omega : j < i + 1) with hlt2 | heq
          · exact absurd (hlt j hlt2) h.1.2
          · exact absurd heq h.1.1
        have h2 : (List.range' (i + 1) k).filter
            (fun j => decide (j ∉ insert i used) &&
              areBboxesClose (getRect (ds.getD i default).rectEntry)
                (getRect (ds.getD j default).rectEntry) t) =
            (List.range' (i + 1) k).filter
              (fun j => decide (j ∉ used) &&
                areBboxesClose (getRect (ds.getD i default).rectEntry)
                  (getRect (ds.getD j default).rectEntry) t) := by
          apply List.filter_congr
          intro j hj
          have hge := (mem_range'_lt hj).1
          have hne : j ≠ i := by omega
          simp [Finset.mem_insert, hne]
        rw [h1, h2, List.nil_append]
      rw [hfilterfull]
      have hhead : (i :: List.range' (i + 1) k).filter (fun j => decide (j ∉ used)) =
          i :: (List.range' (i + 1) k).filter (fun j => decide (j ∉ used)) := by
        rw [List.filter_cons_of_pos]
        simp [hiu]
      rw [hhead, List.map_cons, anchorGroups]
      refine congrArg₂ List.cons ?_ ?_
      · refine congrArg (List.cons (ds.getD i default)) ?_
        rw [List.filter_map, List.filter_filter]
        refine congrArg (List.map (fun j => ds.getD j default)) ?_
        apply List.filter_congr
        intro j _
        simp only [Function.comp_apply]
        exact Bool.and_comm _ _
      · rw [ih (i + 1) (insert i used ∪
          ((List.range' (i + 1) k).filter
            (fun j => decide (j ∉ used) &&
              areBboxesClose (getRect (ds.getD i default).rectEntry)
                (getRect (ds.getD j default).rectEntry) t)).toFinset) (by omega)
          (fun j hj => by
            rcases Nat.lt_succ_iff_lt_or_eq.mp hj with h | h
            · exact Finset.mem_union_left _ (Finset.mem_insert_of_mem (hlt j h))
            · exact Finset.mem_union_left _ (h ▸ Finset.mem_insert_self i used))]
        rw [List.filter_map, List.filter_filter]
        refine congrArg (anchorGroups t) (congrArg (List.map (fun j => ds.getD j default)) ?_)
        apply List.filter_congr
        intro j hj
        simp only [Function.comp_apply]
        have hge : i + 1 ≤ j := (mem_range'_lt hj).1
        have hne : j ≠ i := by omega
        set U := insert i used ∪ ((List.range' (i + 1) k).filter
          (fun j => decide (j ∉ used) &&
            areBboxesClose (getRect (ds.getD i default).rectEntry)
              (getRect (ds.getD j default).rectEntry) t)).toFinset with hU
        by_cases hju : j ∈ used
        · have h1 : j ∈ U := by
            rw [hU]
            exact Finset.mem_union_left _ (Finset.mem_insert_of_mem hju)
          have hL : decide (j ∉ U) = false := by simp [h1]
          have hR : decide (j ∉ used) = false := by simp [hju]
          rw [hL, hR, Bool.and_false]
        · by_cases hPj : areBboxesClose (getRect (ds.getD i default).rectEntry)
              (getRect (ds.getD j default).rectEntry) t = true
          · have hmemF : j ∈ (List.range' (i + 1) k).filter
                (fun j => decide (j ∉ used) &&
                  areBboxesClose (getRect (ds.getD i default).rectEntry)
                    (getRect (ds.getD j default).rectEntry) t) :=
              List.mem_filter.mpr ⟨hj, by rw [Bool.and_eq_true]; exact ⟨by simp [hju], hPj⟩⟩
            have h1 : j ∈ U := by
              rw [hU]
              exact Finset.mem_union_right _ (List.mem_toFinset.mpr hmemF)
            have hL : decide (j ∉ U) = false := by simp [h1]
            rw [hL, hPj, Bool.not_true, Bool.false_and]
          · rw [Bool.not_eq_true] at hPj
            have h1 : j ∉ U := by
              rw [hU]
              simp only [Finset.mem_union, Finset.mem_insert, List.mem_toFinset,
                List.mem_filter, Bool.and_eq_true, decide_eq_true_eq, not_or]
              refine ⟨⟨hne, hju⟩, fun h => ?_⟩
              rw [hPj] at h
              exact Bool.false_ne_true h.2.2
            have hL : decide (j ∉ U) = true := by simp [h1]
            have hR : decide (j ∉ used) = true := by simp [hju]
            rw [hL, hR, hPj, Bool.not_false, Bool.true_and]


theorem map_getD_range (ds : List DrawingPrimitive) :
    (List.range ds.length).map (fun j => ds.getD j default) = ds := by
  induction ds with
  | nil => rfl
  | cons d rest ih =>
    rw [List.length_cons, List.range_succ_eq_map, List.map_cons, List.map_map]
    refine congrArg₂ List.cons rfl ?_
    have hcomp : ((fun j => (d :: rest).getD j default) ∘ Nat.succ) =
        fun j => rest.getD j default := by
      funext j
      rfl
    rw [hcomp, ih]

theorem groupDrawings_eq_anchorGroups (ds : List DrawingPrimitive) (t : ℚ) :
    groupDrawingsByProximity ds t = anchorGroups t ds := by
  cases hds : ds with
  | nil => simp [groupDrawingsByProximity, anchorGroups]
  | cons d rest =>
    have h := proximityOuter_spec (d :: rest) t (d :: rest).length 0 ∅ (by omega)
      (fun j hj => absurd hj (Nat.not_lt_zero j))
    rw [← List.range_eq_range'] at h
    have hfe : (List.range (d :: rest).length).filter (fun j => decide (j ∉ (∅ : Finset ℕ))) =
        List.range (d :: rest).length :=
      List.filter_eq_self.mpr (fun a _ => by simp)
    rw [hfe, map_getD_range] at h
    exact h

theorem scen_h12 : areBboxesClose (getRect scenP1.rectEntry) (getRect scenP2.rectEntry) 50 =
    true := by
  norm_num [areBboxesClose, getRect, scenP1, scenP2]

theorem scen_h13 : areBboxesClose (getRect scenP1.rectEntry) (getRect scenP3.rectEntry) 50 =
    false := by
  norm_num [areBboxesClose, getRect, scenP1, scenP3]

theorem scen_groups : groupDrawingsByProximity [scenP1, scenP2, scenP3] 50 =
    [[scenP1, scenP2], [scenP3]] := by
  rw [groupDrawings_eq_anchorGroups]
  have h23 : areBboxesClose (getRect scenP2.rectEntry) (getRect scenP3.rectEntry) 50 =
      false := by
    norm_num [areBboxesClose, getRect, scenP2, scenP3]
  simp [anchorGroups, scen_h12, scen_h13, h23]

theorem scen_union : unionBbox [scenP1, scenP2] = some ⟨0, 0, 20, 10⟩ := by
  norm_num [unionBbox, unionStep, getRect, scenP1, scenP2, min_def, max_def]


theorem areBboxesClose_none_left (b2 : Option DrawRect) (t : ℚ) :
    areBboxesClose none b2 t = false := by
  cases b2 <;> rfl

theorem areBboxesClose_none_right (b1 : Option DrawRect) (t : ℚ) :
    areBboxesClose b1 none t = false := by
  cases b1 <;> rfl

theorem anchorGroups_null_singleton (t : ℚ) :
    ∀ (l : List DrawingPrimitive), ∀ g ∈ anchorGroups t l, ∀ d ∈ g,
      d.rectEntry = RectEntry.null → g = [d] := by
  intro l
  induction l using anchorGroups.induct t with
  | case1 => intro g hg; simp [anchorGroups] at hg
  | case2 p rest b ih =>
    intro g hg d hd hnull
    rw [anchorGroups] at hg
    rcases List.mem_cons.mp hg with hghead | hgtail
    · subst hghead
      rcases List.mem_cons.mp hd with hdp | hdmem
      · subst hdp
        have hfilter : rest.filter
            (fun q => areBboxesClose (getRect d.rectEntry) (getRect q.rectEntry) t) = [] := by
          rw [List.filter_eq_nil_iff]
          intro q _
          rw [hnull]
          simp [getRect, areBboxesClose_none_left]
        rw [hfilter]
      · exfalso
        have hclose := (List.mem_filter.mp hdmem).2
        rw [hnull] at hclose
        simp [getRect, areBboxesClose_none_right] at hclose
    · exact ih g hgtail d hd hnull

theorem unionBbox_filter_null :
    ∀ (g : List DrawingPrimitive),
      unionBbox g =
        unionBbox (g.filter (fun d => decide (d.rectEntry ≠ RectEntry.null))) := by
  have haux : ∀ (g : List DrawingPrimitive) (acc : Option DrawRect),
      g.foldl unionStep acc =
        (g.filter (fun d => decide (d.rectEntry ≠ RectEntry.null))).foldl unionStep acc := by
    intro g
    induction g with
    | nil => intro acc; rfl
    | cons d g ih =>
      intro acc
      cases hd : d.rectEntry with
      | null =>
        have hstep : unionStep acc d = acc := by
          rw [unionStep, hd]
          rfl
        rw [List.foldl_cons, hstep, List.filter_cons_of_neg (by simp [hd]), ih]
      | missing =>
        rw [List.foldl_cons, List.filter_cons_of_pos (by simp [hd]), List.foldl_cons, ih]
      | rect r =>
        rw [List.foldl_cons, List.filter_cons_of_pos (by simp [hd]), List.foldl_cons, ih]
  intro g
  exact haux g none


theorem mem_mapWithIndex {f : ℕ → α → β} {a : β} :
    ∀ {l : List α} {k : ℕ}, a ∈ mapWithIndex f k l → ∃ i x, x ∈ l ∧ a = f i x := by
  intro l
  induction l with
  | nil => intro k h; cases h
  | cons x xs ih =>
    intro k h
    rcases List.mem_cons.mp h with h1 | h2
    · exact ⟨k, x, List.mem_cons_self x xs, h1⟩
    · obtain ⟨i, y, hy, ha⟩ := ih h2
      exact ⟨i, y, List.mem_cons_of_mem x hy, ha⟩

/-- C7: every visual element record the drawing extractor emits carries a
union bounding box whose width and height are both at least the
minimum-drawing-size threshold 20 — a drawing group whose union box is
smaller never appears in the output. -/
theorem drawing_elements_min_size (ds : List DrawingPrimitive) (t : ℚ)
    (rasterBytes : DrawRect → ℕ) (filename : String) (pageNum : ℕ) :
    (extractDrawingElements ds t rasterBytes filename pageNum).Forall
      (fun e => 20 ≤ rectWidth e.bbox ∧ 20 ≤ rectHeight e.bbox) := by
  rw [List.forall_iff_forall_mem]
  intro e he
  rw [extractDrawingElements] at he
  obtain ⟨o, ho, hoe⟩ := List.mem_filterMap.mp he
  simp only [id] at hoe
  subst hoe
  obtain ⟨i, g, _, hsome⟩ := mem_mapWithIndex ho
  have hsome2 := hsome.symm
  split at hsome2
  · cases hsome2
  · rename_i b heq
    split_ifs at hsome2 with hsize hbytes
    all_goals try cases hsome2
    rw [not_or, not_lt, not_lt] at hsize
    exact ⟨hsize.1, hsize.2⟩

/-- C8: the clustering the source loops implement is exactly the spec's
anchor-based grouping (each anchor, in input order, absorbs every
still-unvisited close primitive), and in the spec's scenario two primitives
10 units apart under threshold 50 form one group whose bounding box is the
componentwise union of theirs while a primitive 500 units away forms its
own group. -/
theorem proximity_grouping_anchor_based :
    (∀ (ds : List DrawingPrimitive) (t : ℚ),
      groupDrawingsByProximity ds t = anchorGroups t ds) ∧
    groupDrawingsByProximity [scenP1, scenP2, scenP3] 50 = [[scenP1, scenP2], [scenP3]] ∧
    unionBbox [scenP1, scenP2] = some ⟨0, 0, 20, 10⟩ :=
  ⟨groupDrawings_eq_anchorGroups, scen_groups, scen_union⟩

/-- Counterexample to C9 as stated: a primitive whose rect entry is falsy is
*not* placed in no group — it seeds its own singleton group in the
clustering output. -/
theorem null_rect_counterexample :
    ∃ g ∈ groupDrawingsByProximity
      [⟨RectEntry.rect ⟨0, 0, 10, 10⟩, 1⟩, ⟨RectEntry.null, 2⟩] 50,
      (⟨RectEntry.null, 2⟩ : DrawingPrimitive) ∈ g := by
  decide

/-- C9 (amended): a primitive with a falsy rect never joins another
primitive's group (any group containing it is its own singleton, which the
downstream size filter discards as a degenerate box) and contributes
nothing to any union bounding box. -/
theorem null_rect_isolated (ds : List DrawingPrimitive) (t : ℚ) :
    (∀ g ∈ groupDrawingsByProximity ds t, ∀ d ∈ g,
      d.rectEntry = RectEntry.null → g = [d]) ∧
    (∀ g : List DrawingPrimitive,
      unionBbox g =
        unionBbox (g.filter (fun d => decide (d.rectEntry ≠ RectEntry.null)))) := by
  refine ⟨?_, unionBbox_filter_null⟩
  intro g hg
  rw [groupDrawings_eq_anchorGroups] at hg
  exact anchorGroups_null_singleton t ds g hg

/-- Witness for C9 (amended) at a concrete two-primitive input. -/
theorem null_rect_isolated_witness :
    ([⟨RectEntry.null, 2⟩] : List DrawingPrimitive) = [⟨RectEntry.null, 2⟩] ∧
    unionBbox [⟨RectEntry.rect ⟨0, 0, 10, 10⟩, 1⟩, ⟨RectEntry.null, 2⟩] =
      unionBbox ([(⟨RectEntry.rect ⟨0, 0, 10, 10⟩, 1⟩ : DrawingPrimitive),
          ⟨RectEntry.null, 2⟩].filter
        (fun d => decide (d.rectEntry ≠ RectEntry.null))) :=
  ⟨(null_rect_isolated [⟨RectEntry.rect ⟨0, 0, 10, 10⟩, 1⟩, ⟨RectEntry.null, 2⟩] 50).1
      [⟨RectEntry.null, 2⟩] (by decide) ⟨RectEntry.null, 2⟩ (by decide) rfl,
    (null_rect_isolated [] 0).2 _⟩

end Chatbot
